import Mathlib

/-
  Verification of the diff-viewer core of reviewboard
  (reviewboard/diffviewer/diffutils.py) against its specification.

  Python 2 byte strings (single lines of text) are modelled as `List Char`;
  buffers of lines as `List Line`.  Mutable dicts become association lists
  with in-place update semantics; exceptions become `Except`.  Each
  definition mirrors the corresponding Python function; deviations forced
  by totality (e.g. out-of-range list indexing) are noted in comments.
-/

namespace Diffutils

/-- A single line of text (a Python 2 `str`). -/
abbrev Line := List Char

/-- A buffer split into lines. -/
abbrev Lines := List Line

/-- Conversion from Lean string literals, used for concrete test vectors. -/
def chars (s : String) : Line := s.data

/-- Python whitespace, as recognised by `str.strip` and by the regex `\s`
(ASCII, no `re.UNICODE` flag is set in the source). -/
def isPySpace (c : Char) : Bool :=
  c = ' ' || c = '\t' || c = '\n' || c = '\r' || c = '\x0b' || c = '\x0c'

/-- A word character, as matched by `ALPHANUM_RE = re.compile(r'\w')`. -/
def isWordChar (c : Char) : Bool :=
  c.isAlphanum || c = '_'

/-- Python `str.strip()`: remove leading and trailing whitespace. -/
def pyStrip (l : Line) : Line :=
  ((l.dropWhile isPySpace).reverse.dropWhile isPySpace).reverse

/-- `WHITESPACE_RE.sub("", line)`: remove every whitespace character. -/
def removeWs (l : Line) : Line :=
  l.filter (fun c => !(isPySpace c))

/-- Indexing `xs[i]` on the line buffers.  The Python code only ever indexes
in range here (opcodes cover the buffers); we use a default for totality. -/
def getLineD (xs : Lines) (i : Nat) : Line := xs.getD i []

/-- Python slice `xs[s:e]` with non-negative bounds (clamped, as in Python). -/
def pySliceNat (xs : Lines) (s e : Nat) : Lines := (xs.drop s).take (e - s)

/-- Opcode tags produced by the differ. -/
inductive Tag
  | equal
  | replace
  | delete
  | insert
deriving DecidableEq, Repr

/-- An opcode `(tag, i1, i2, j1, j2)`: `[i1,i2)` indexes the original buffer,
`[j1,j2)` the new buffer. -/
structure Opcode where
  tag : Tag
  i1 : Nat
  i2 : Nat
  j1 : Nat
  j2 : Nat
deriving DecidableEq, Repr

/-- The per-opcode metadata dict built by `opcodes_with_metadata`.  The
`moved` dict (added on demand via `setdefault`) is an association list:
absent key = key not in the dict. -/
structure Meta where
  whitespace_chunk : Bool
  whitespace_lines : List (Nat × Nat)
  moved : List (Nat × Nat)
deriving DecidableEq, Repr

instance : Inhabited Meta := ⟨⟨false, [], []⟩⟩

/-- A group `(tag, i1, i2, j1, j2, meta)` as assembled in the first pass. -/
structure Group where
  tag : Tag
  i1 : Nat
  i2 : Nat
  j1 : Nat
  j2 : Nat
  meta : Meta
deriving DecidableEq, Repr

/-- Runtime errors of `opcodes_with_metadata`: the failing `assert` on a
length-mismatched replace, and the `TypeError` that the winner-selection
loop would raise on its second iteration (`r_move_range[2]` is the group
tuple, so `r_move_range[2] - r_move_range[1]` subtracts an int from a
tuple). -/
inductive MErr
  | assertReplaceLen
  | tupleMinusInt
deriving DecidableEq, Repr

/-- Python dict lookup `d[k]` / `d.get(k)` on a `moved`-style dict. -/
def dictGet (d : List (Nat × Nat)) (k : Nat) : Option Nat :=
  match d with
  | [] => none
  | (k1, v) :: rest => if k1 = k then some v else dictGet rest k

/-- Python dict assignment `d[k] = v`. -/
def dictSet (d : List (Nat × Nat)) (k v : Nat) : List (Nat × Nat) :=
  match d with
  | [] => [(k, v)]
  | (k1, v1) :: rest => if k1 = k then (k1, v) :: rest else (k1, v1) :: dictSet rest k v

/-- Python `d.update(pairs)`. -/
def dictUpdate (d : List (Nat × Nat)) (ps : List (Nat × Nat)) : List (Nat × Nat) :=
  ps.foldl (fun acc p => dictSet acc p.1 p.2) d

/-- Key membership in a `moved`-style dict. -/
def dictMem (d : List (Nat × Nat)) (k : Nat) : Bool :=
  (dictGet d k).isSome

/-- First pass of `opcodes_with_metadata` for one opcode: build the meta
dict, asserting (for `replace`) that both sides have the same length and
recording the whitespace-only line pairs. -/
def buildGroup (a b : Lines) (op : Opcode) : Except MErr Group :=
  match op.tag with
  | .replace =>
    -- assert (i2 - i1) == (j2 - j1): Python ints, so compare in ℤ
    if ((op.i2 : Int) - (op.i1 : Int)) ≠ ((op.j2 : Int) - (op.j1 : Int)) then
      .error .assertReplaceLen
    else
      let pairs := List.zip (List.range' op.i1 (op.i2 - op.i1))
                           (List.range' op.j1 (op.j2 - op.j1))
      let ws := (pairs.filter
          (fun p => removeWs (getLineD a p.1) == removeWs (getLineD b p.2))).map
          (fun p => (p.1 + 1, p.2 + 1))
      .ok ⟨op.tag, op.i1, op.i2, op.j1, op.j2,
           ⟨decide ((ws.length : Int) = (op.i2 : Int) - (op.i1 : Int)), ws, []⟩⟩
  | t => .ok ⟨t, op.i1, op.i2, op.j1, op.j2, ⟨false, [], []⟩⟩

/-- First pass over all opcodes. -/
def buildGroups (a b : Lines) : List Opcode → Except MErr (List Group)
  | [] => .ok []
  | op :: rest => do
    let g ← buildGroup a b op
    let gs ← buildGroups a b rest
    .ok (g :: gs)

/-- The `removes` dict: stripped deleted line → list of
`(original_index, owning delete group index)`.  The group is identified by
its position in the group list (the Python code stores the group tuple
itself, whose meta dict is shared by reference). -/
abbrev Removes := List (Line × List (Nat × Nat))

/-- `removes.setdefault(line, []).append(v)`. -/
def removesAdd (rs : Removes) (key : Line) (v : Nat × Nat) : Removes :=
  match rs with
  | [] => [(key, [v])]
  | (k, vs) :: rest =>
    if k = key then (k, vs ++ [v]) :: rest else (k, vs) :: removesAdd rest key v

/-- `removes.get(line)` (`line in removes` iff this is `some`). -/
def lookupRemoves (rs : Removes) (key : Line) : Option (List (Nat × Nat)) :=
  match rs with
  | [] => none
  | (k, vs) :: rest => if k = key then some vs else lookupRemoves rest key

/-- Builds `removes` and the list of insert groups (with their indices)
while walking the groups in order, as the first pass does. -/
def collectFrom (a : Lines) : Nat → List Group → Removes → List (Nat × Group) →
    Removes × List (Nat × Group)
  | _, [], rs, ins => (rs, ins)
  | idx, g :: rest, rs, ins =>
    match g.tag with
    | .delete =>
      let rs1 := (List.range' g.i1 (g.i2 - g.i1)).foldl (fun racc i =>
        let line := pyStrip (getLineD a i)
        if line = [] then racc else removesAdd racc line (i, idx)) rs
      collectFrom a (idx + 1) rest rs1 ins
    | .insert => collectFrom a (idx + 1) rest rs (ins ++ [(idx, g)])
    | _ => collectFrom a (idx + 1) rest rs ins

/-- A candidate removed-side move range `(r_start, r_end, group index)`,
with inclusive endpoints. -/
abbrev RRange := Nat × Nat × Nat

/-- The key `"i1-i2-j1-j2"` of a delete group. -/
abbrev RKey := Nat × Nat × Nat × Nat

/-- `r_move_ranges`: key → currently-extending candidate ranges. -/
abbrev RMR := List (RKey × List RRange)

def groupKey (g : Group) : RKey := (g.i1, g.i2, g.j1, g.j2)

/-- All candidate ranges across all keys, in iteration order. -/
def flattenRMR (rmr : RMR) : List RRange := (rmr.map Prod.snd).flatten

/-- One step of the winner-selection loop.  The first candidate becomes the
current winner; reaching a second candidate executes
`len1 = r_move_range[2] - r_move_range[1]`, which subtracts an int from the
stored group tuple and raises a `TypeError`. -/
def pickWinnerStep (acc : Except MErr (Option RRange)) (r : RRange) :
    Except MErr (Option RRange) := do
  let cur ← acc
  match cur with
  | none => pure (some r)
  | some _ => .error .tupleMinusInt

/-- The winner-selection loop over all candidate ranges. -/
def pickWinner (rs : List RRange) : Except MErr (Option RRange) :=
  rs.foldl pickWinnerStep (.ok none)

/-- The inner `for i, r_move_range in enumerate(r_move_ranges.get(key, []))`
loop: extend (in place) the first range that the removed line at `ri`
immediately follows, then `break`. -/
def extendFirst (ri rg : Nat) : List RRange → List RRange
  | [] => []
  | (r1, r2, g0) :: rest =>
    if ri = r2 + 1 then (r1, ri, rg) :: rest
    else (r1, r2, g0) :: extendFirst ri rg rest

/-- Update the ranges stored under `key` (other keys untouched). -/
def rmrUpdate (rmr : RMR) (key : RKey) (ri rg : Nat) : RMR :=
  rmr.map (fun e => if e.1 = key then (e.1, extendFirst ri rg e.2) else e)

/-- Processing of one `(ri, rgroup)` entry of `removes[iline]`: if any move
range exists, try to extend an existing range under this group's key;
otherwise seed `r_move_ranges[key] = [(ri, ri, rgroup)]`. -/
def rmrStep (gs : List Group) (rmr : RMR) (e : Nat × Nat) : RMR :=
  let key := match gs.get? e.2 with
    | some g => groupKey g
    | none => (0, 0, 0, 0)
  if rmr.isEmpty then [(key, [(e.1, e.1, e.2)])]
  else rmrUpdate rmr key e.1 e.2

/-- `is_valid_move_range`: at least one line that, stripped, is at least 4
characters long and contains a word character. -/
def is_valid_move_range (lines : Lines) : Bool :=
  lines.any (fun line =>
    let line1 := pyStrip line
    decide (4 ≤ line1.length) && line1.any isWordChar)

/-- Writes `pairs` into the `moved` dict of the meta of group `k`
(`meta.setdefault('moved', {}).update(dict(pairs))`). -/
def updateMoved (metas : List Meta) (k : Nat) (ps : List (Nat × Nat)) : List Meta :=
  match metas.get? k with
  | none => metas
  | some m => metas.set k { m with moved := dictUpdate m.moved ps }

/-- State of the move-detection pass: the (mutable) meta dicts of all
groups, plus a ghost log recording, for each close-out, the candidate
ranges that the winner selection saw.  The log affects nothing. -/
structure MoveState where
  metas : List Meta
  log : List (List RRange)
deriving DecidableEq, Repr

/-- Close-out at insert position `cur` (the current line has no matching
removed line, or the end of the buffer was reached): pick the longest
candidate range, validate it, and record the bidirectional 1-based `moved`
entries into the winning delete group's meta and the insert group's meta.
Afterwards the caller resets the state.  Note the slice
`differ.a[r_move_range[0]:r_move_range[1]]` passed to
`is_valid_move_range`: it excludes the final line of the (inclusive)
winning range. -/
def closeOut (a : Lines) (g cur iStart : Nat) (rmr : RMR) (st : MoveState) :
    Except MErr MoveState :=
  let cands := flattenRMR rmr
  let st1 : MoveState := { st with log := st.log ++ [cands] }
  if rmr.isEmpty then .ok st1
  else do
    let w ← pickWinner cands
    match w with
    | none => .ok st1
    | some (r1, r2, rg) =>
      if is_valid_move_range (pySliceNat a r1 r2) then
        -- i_move_range = range(i_move_range[0] + 1, i_move_cur + 1)
        -- r_move_range = range(r_move_range[0] + 1, r_move_range[1] + 2)
        let iR := List.range' (iStart + 1) (cur - iStart)
        let rR := List.range' (r1 + 1) (r2 + 1 - r1)
        let metas1 := updateMoved st1.metas rg (List.zip rR iR)
        let metas2 := updateMoved metas1 g (List.zip iR rR)
        .ok { st1 with metas := metas2 }
      else .ok st1

/-- The `while i_move_cur <= ij2` loop for one insert group `g`.  `fuel` is
the number of remaining iterations (`ij2 + 1 - cur`); `iStart` is
`i_move_range[0]`.  Reading `differ.b[i_move_cur]` out of range raises
`IndexError`, caught and turned into `iline = None` (modelled by `get?`). -/
def moveWalk (a b : Lines) (gs : List Group) (removes : Removes) (g : Nat) :
    Nat → Nat → Nat → RMR → MoveState → Except MErr MoveState
  | 0, _, _, _, st => .ok st
  | fuel + 1, cur, iStart, rmr, st =>
    match ((b.get? cur).map pyStrip).bind (lookupRemoves removes) with
    | some entries =>
      -- iline is not None and iline in removes: extend/seed, advance
      moveWalk a b gs removes g fuel (cur + 1) iStart
        (entries.foldl (rmrStep gs) rmr) st
    | none => do
      -- close out, then reset the state for the next range
      let st1 ← closeOut a g cur iStart rmr st
      moveWalk a b gs removes g fuel (cur + 1) (cur + 1) [] st1

/-- Move detection for one insert group (`(idx, group)` pair). -/
def processInsert (a b : Lines) (gs : List Group) (removes : Removes)
    (st : MoveState) (p : Nat × Group) : Except MErr MoveState :=
  moveWalk a b gs removes p.1 (p.2.j2 + 1 - p.2.j1) p.2.j1 p.2.j1 [] st

/-- Reassemble the groups with their final meta dicts. -/
def finalize (gs : List Group) (metas : List Meta) : List Group :=
  List.zipWith (fun g m => { g with meta := m }) gs metas

/-- `opcodes_with_metadata`, with the ghost close-out log exposed:
first pass builds the annotated groups, `removes` and the insert list;
the second pass detects moved blocks. -/
def opcodes_with_metadata_full (a b : Lines) (ops : List Opcode) :
    Except MErr (List Group × List (List RRange)) := do
  let gs ← buildGroups a b ops
  let (removes, inserts) := collectFrom a 0 gs [] []
  let st0 : MoveState := ⟨gs.map Group.meta, []⟩
  let st ← inserts.foldlM (processInsert a b gs removes) st0
  .ok (finalize gs st.metas, st.log)

/-- `opcodes_with_metadata(differ)`: the returned group list. -/
def opcodes_with_metadata (a b : Lines) (ops : List Opcode) :
    Except MErr (List Group) :=
  (opcodes_with_metadata_full a b ops).map Prod.fst

/-! ### String helpers shared by several functions -/

/-- Python `s.rfind(c)`: index of the last occurrence, or `-1`. -/
def pyRFind (l : Line) (c : Char) : Int :=
  match l.reverse.indexOf? c with
  | none => -1
  | some i => (l.length : Int) - 1 - (i : Int)

/-- Normalization of one Python slice index against a length: negative
indices count from the end, out-of-range indices clamp. -/
def pyNormIdx (n : Nat) (i : Int) : Nat :=
  if i < 0 then ((n : Int) + i).toNat else min i.toNat n

/-- Python slice `l[s:e]` with arbitrary int bounds. -/
def pySliceI (l : Line) (s e : Int) : Line :=
  (l.take (pyNormIdx l.length e)).drop (pyNormIdx l.length s)

/-- `os.path.splitext`: split off the extension at the last dot, unless the
dot belongs to a leading all-dots run of the file name (so `.bashrc` has no
extension). -/
def splitext (p : Line) : Line × Line :=
  let sepIndex := pyRFind p '/'
  let dotIndex := pyRFind p '.'
  if dotIndex > sepIndex then
    let seg := pySliceI p (sepIndex + 1) dotIndex
    if seg.any (fun c => c ≠ '.') then (p.take dotIndex.toNat, p.drop dotIndex.toNat)
    else (p, [])
  else (p, [])

/-- Python 2 `cmp` on byte strings: lexicographic, shorter prefix first. -/
def pyCmpStr : Line → Line → Int
  | [], [] => 0
  | [], _ :: _ => -1
  | _ :: _, [] => 1
  | c :: cs, d :: ds => if c < d then -1 else if d < c then 1 else pyCmpStr cs ds

/-! ### Header regex tables and `register_interesting_lines_for_filename` -/

/-- `HEADER_REGEXES`.  The compiled regular expressions are opaque to this
development; each pattern is represented by the pair (table key, position
in the key's pattern list).  The number of patterns per key follows the
source table. -/
def HEADER_REGEXES : List (String × List (String × Nat)) :=
  [(".cs", [(".cs", 0), (".cs", 1)]),
   (".c", [(".c", 0), (".c", 1)]),
   (".java", [(".java", 0), (".java", 1)]),
   (".js", [(".js", 0), (".js", 1)]),
   (".m", [(".m", 0), (".m", 1), (".m", 2)]),
   (".php", [(".php", 0)]),
   (".pl", [(".pl", 0)]),
   (".py", [(".py", 0)]),
   (".rb", [(".rb", 0)])]

/-- `HEADER_REGEX_ALIASES`, verbatim from the source. -/
def HEADER_REGEX_ALIASES : List (String × String) :=
  [(".cc", ".c"), (".cpp", ".c"), (".cxx", ".c"), (".c++", ".c"),
   (".h", ".c"), (".hh", ".c"), (".hpp", ".c"), (".hxx", ".c"),
   (".h++", ".c"), (".C", ".c"), (".H", ".c"),
   (".mm", ".m"),
   (".pm", ".pl"),
   ("SConstruct", ".py"), ("SConscript", ".py"), (".pyw", ".py"), (".sc", ".py"),
   ("Rakefile", ".rb"), (".rbw", ".rb"), (".rake", ".rb"),
   (".gemspec", ".rb"), (".rbx", ".rb")]

/-- The expression `file in HEADER_REGEX_ALIASES` at the top of
`register_interesting_lines_for_filename`: the bare name `file` is not the
`filename` parameter but the Python builtin file type, which is never a
string key of the alias dict, so the test is always false. -/
def fileBuiltinInAliases : Bool := false

/-- `register_interesting_lines_for_filename`, reduced to the list of
regexes it registers with the differ (a list, since the registration loop
just iterates `regexes`). -/
def register_interesting_lines_for_filename (filename : String) : List (String × Nat) :=
  if fileBuiltinInAliases then
    ((HEADER_REGEX_ALIASES.lookup filename).bind
      (fun k => HEADER_REGEXES.lookup k)).getD []
  else
    let ext : String := ⟨(splitext filename.data).2⟩
    match HEADER_REGEXES.lookup ext with
    | some rs => rs
    | none =>
      match HEADER_REGEX_ALIASES.lookup ext with
      | some k => (HEADER_REGEXES.lookup k).getD []
      | none => []

/-- Modelled from the spec: the intended behaviour of
`register_interesting_lines_for_filename`, with the alias table consulted
first for the bare `filename` (e.g. `Rakefile`), then the extension table,
then the alias table for the extension.  (The source instead tests the
free builtin name `file`, making the first branch unreachable; the spec
says to treat the parameter as authoritative.) -/
def register_interesting_lines_spec (filename : String) : List (String × Nat) :=
  match HEADER_REGEX_ALIASES.lookup filename with
  | some k => (HEADER_REGEXES.lookup k).getD []
  | none =>
    let ext : String := ⟨(splitext filename.data).2⟩
    match HEADER_REGEXES.lookup ext with
    | some rs => rs
    | none =>
      match HEADER_REGEX_ALIASES.lookup ext with
      | some k => (HEADER_REGEXES.lookup k).getD []
      | none => []

/-! ### `convert_to_utf8` -/

/-- A Python 2 string value: either a byte string (`str`) or a `unicode`
string (a sequence of code points). -/
inductive PyStr
  | bytes (data : List Nat)
  | unicode (data : List Nat)
deriving DecidableEq, Repr

/-- A UTF-8 continuation byte. -/
def isCont (c : Nat) : Bool := 128 ≤ c && c < 192

/-- One UTF-8-encoded code point at the head of a byte string: the decoded
code point and the remaining bytes, or `none` on invalid input.  Overlong
forms and code points above U+10FFFF are rejected; surrogate code points
are accepted, as the Python 2 codec accepts them. -/
def utf8DecodeOne : List Nat → Option (Nat × List Nat)
  | [] => none
  | b :: rest =>
    if b < 128 then some (b, rest)
    else if b < 194 then none
    else if b < 224 then
      match rest with
      | c :: rest2 =>
        if isCont c then some ((b % 32) * 64 + c % 64, rest2) else none
      | [] => none
    else if b < 240 then
      match rest with
      | c :: d :: rest3 =>
        let cp := (b % 16) * 4096 + (c % 64) * 64 + d % 64
        if isCont c && isCont d && decide (2048 ≤ cp) then some (cp, rest3) else none
      | _ => none
    else if b < 245 then
      match rest with
      | c :: d :: e :: rest4 =>
        let cp := (b % 8) * 262144 + (c % 64) * 4096 + (d % 64) * 64 + e % 64
        if isCont c && isCont d && isCont e &&
            decide (65536 ≤ cp) && decide (cp ≤ 1114111) then
          some (cp, rest4)
        else none
      | _ => none
    else none

/-- Decoding loop; the fuel bounds the number of decoded code points (one
code point consumes at least one byte, so `sb.length` is always enough). -/
def utf8DecodeLoop : Nat → List Nat → Option (List Nat)
  | _, [] => some []
  | 0, _ :: _ => none
  | fuel + 1, b :: rest =>
    match utf8DecodeOne (b :: rest) with
    | none => none
    | some (cp, rest2) => (utf8DecodeLoop fuel rest2).map (fun u => cp :: u)

/-- Strict UTF-8 decoding (`unicode(s, 'utf-8')`): `none` models the
`UnicodeError` raised on invalid input. -/
def utf8Decode? (sb : List Nat) : Option (List Nat) :=
  utf8DecodeLoop sb.length sb

/-- UTF-8 encoding of one code point (`u.encode('utf-8')`). -/
def utf8EncodeChar (c : Nat) : List Nat :=
  if c < 128 then [c]
  else if c < 2048 then [192 + c / 64, 128 + c % 64]
  else if c < 65536 then [224 + c / 4096, 128 + (c / 64) % 64, 128 + c % 64]
  else [240 + c / 262144, 128 + (c / 4096) % 64, 128 + (c / 64) % 64, 128 + c % 64]

/-- UTF-8 encoding of a unicode string. -/
def utf8Encode (cs : List Nat) : List Nat := (cs.map utf8EncodeChar).flatten

/-- `convert_to_utf8(s, enc)`.  The user-configured fallback encodings
(`enc.split(',')`) are external codecs, modelled as decoder functions
(`none` = `UnicodeError`); so is the final `errors='replace'` decode,
which never fails, making the last `raise` unreachable.  Note the
asymmetry of the source: a `unicode` input and a fallback-decoded input
are re-encoded to UTF-8 bytes, but a byte input that is already valid
UTF-8 is returned as the *decoded unicode object*. -/
def convert_to_utf8 (s : PyStr) (encs : List (List Nat → Option (List Nat)))
    (replaceDec : List Nat → List Nat) : PyStr :=
  match s with
  | .unicode u => .bytes (utf8Encode u)
  | .bytes sb =>
    match utf8Decode? sb with
    | some u => .unicode u
    | none =>
      match encs.firstM (fun e => e sb) with
      | some u => .bytes (utf8Encode u)
      | none => .unicode (replaceDec sb)

/-- Python 2 equality between string values: comparing `str` with
`unicode` coerces the bytes through an ASCII decode, which fails (yielding
unequal) when any byte is ≥ 128. -/
def pyEq : PyStr → PyStr → Bool
  | .bytes a, .bytes b => a == b
  | .unicode a, .unicode b => a == b
  | .bytes a, .unicode b => a.all (· < 128) && a == b
  | .unicode a, .bytes b => b.all (· < 128) && a == b

/-! ### The collapse logic of `get_chunks` -/

/-- The per-opcode chunk emission of `get_chunks`, projected to the
`(start, end, collapsable)` triples passed to `new_chunk` (the slicing of
the rendered lines and the header attachment are orthogonal to the ranges).
`linenum` is the running virtual line number; `i2`, `j2`, `aNum`, `bNum`
feed the end-of-file test. -/
def get_chunks_ranges (ctx : Nat) (tag : Tag) (numlines linenum : Nat)
    (i2 j2 aNum bNum : Nat) : List (Nat × Nat × Bool) :=
  let collapseThreshold := 2 * ctx + 3
  if tag = .equal ∧ numlines > collapseThreshold then
    let lastRangeStart := numlines - ctx
    if linenum = 1 then
      [(0, lastRangeStart, true), (lastRangeStart, numlines, false)]
    else if i2 = aNum ∧ j2 = bNum then
      [(0, ctx, false), (ctx, numlines, true)]
    else
      [(0, ctx, false), (ctx, lastRangeStart, true), (lastRangeStart, numlines, false)]
  else [(0, numlines, false)]

/-- Checks that a list of ranges is contiguous starting from `cur`,
returning the end of the last range. -/
def contiguous : Nat → List (Nat × Nat × Bool) → Option Nat
  | cur, [] => some cur
  | cur, (s, e, _) :: rest => if s = cur then contiguous e rest else none

/-! ### `get_line_changed_regions` -/

/-- Python `str.isspace()`: true iff nonempty and all whitespace. -/
def pyIsSpaceStr (l : Line) : Bool := !l.isEmpty && l.all isPySpace

/-- One iteration of the region loop of `get_line_changed_regions`. -/
def regionStep (ol nl : Line)
    (acc : List (Int × Int) × List (Int × Int) × (Int × Int)) (op : Opcode) :
    List (Int × Int) × List (Int × Int) × (Int × Int) :=
  let (oldchanges, newchanges, back) := acc
  match op.tag with
  | .equal =>
    if (op.i2 : Int) - op.i1 < 3 ∨ (op.j2 : Int) - op.j1 < 3 then
      (oldchanges, newchanges, ((op.j2 : Int) - op.j1, (op.i2 : Int) - op.i1))
    else
      (oldchanges, newchanges, back)
  | _ =>
    let oldstart : Int := (op.i1 : Int) - back.1
    let oldend : Int := op.i2
    let newstart : Int := (op.j1 : Int) - back.2
    let newend : Int := op.j2
    let oldchanges1 :=
      match oldchanges.getLast? with
      | some last =>
        if oldstart ≤ last.2 ∧ last.2 < oldend then
          oldchanges.dropLast ++ [(last.1, oldend)]
        else if !pyIsSpaceStr (pySliceI ol oldstart oldend) then
          oldchanges ++ [(oldstart, oldend)]
        else oldchanges
      | none =>
        if !pyIsSpaceStr (pySliceI ol oldstart oldend) then
          oldchanges ++ [(oldstart, oldend)]
        else oldchanges
    let newchanges1 :=
      match newchanges.getLast? with
      | some last =>
        if newstart ≤ last.2 ∧ last.2 < newend then
          newchanges.dropLast ++ [(last.1, newend)]
        else if !pyIsSpaceStr (pySliceI nl newstart newend) then
          newchanges ++ [(newstart, newend)]
        else newchanges
      | none =>
        if !pyIsSpaceStr (pySliceI nl newstart newend) then
          newchanges ++ [(newstart, newend)]
        else newchanges
    (oldchanges1, newchanges1, (0, 0))

/-- `get_line_changed_regions(oldline, newline)`.  The stdlib
`SequenceMatcher` built from the two lines is external; its similarity
ratio and its opcodes enter as parameters (`ratio` as an exact rational in
place of the float). -/
def get_line_changed_regions (ratio : ℚ) (ops : List Opcode)
    (oldline newline : Option Line) :
    Option (List (Int × Int)) × Option (List (Int × Int)) :=
  match oldline, newline with
  | some ol, some nl =>
    if ratio < (3 : ℚ) / 5 then (none, none)
    else
      let r := ops.foldl (regionStep ol nl) ([], [], (0, 0))
      (some r.1, some r.2.1)
  | _, _ => (none, none)

/-! ### `get_diff_files` ordering -/

/-- The fields of a diff file record that `cmp_file` consults. -/
structure FileRec where
  basepath : Line
  basename : Line
deriving DecidableEq, Repr

/-- `cmp_file`: basepath ascending, then stem ascending, then extension
descending (`cmp(y_ext, x_ext)`). -/
def cmp_file (x y : FileRec) : Int :=
  if x.basepath ≠ y.basepath then pyCmpStr x.basepath y.basepath
  else
    let xs := splitext x.basename
    let ys := splitext y.basename
    if xs.1 ≠ ys.1 then pyCmpStr xs.1 ys.1
    else pyCmpStr ys.2 xs.2

/-- Stable insertion used to model `files.sort(cmp_file)` (any stable sort
agrees on records with pairwise comparable keys; the concrete claims use
records with distinct keys, on which every correct sort agrees). -/
def insertSorted (x : FileRec) : List FileRec → List FileRec
  | [] => [x]
  | y :: ys => if cmp_file x y < 0 then x :: y :: ys else y :: insertSorted x ys

/-- Sorting a file list with `cmp_file`. -/
def sortFiles (l : List FileRec) : List FileRec :=
  l.foldl (fun acc x => insertSorted x acc) []

/-- The basepath/basename split of `get_diff_files`
(`i = source_file.rfind('/')`). -/
def splitBasepath (sourceFile : Line) : FileRec :=
  let i := pyRFind sourceFile '/'
  if i ≠ -1 then ⟨sourceFile.take i.toNat, sourceFile.drop (i.toNat + 1)⟩
  else ⟨[], sourceFile⟩

/-! ### `patch` and `convert_line_endings` -/

/-- `NEWLINE_CONVERSION_RE.sub('\n', d)`: replace each `\r(\r?\n)?` by
`\n` (leftmost match, greedy optional group). -/
def nlConvRe : Line → Line
  | [] => []
  | '\r' :: '\r' :: '\n' :: rest => '\n' :: nlConvRe rest
  | '\r' :: '\n' :: rest => '\n' :: nlConvRe rest
  | '\r' :: rest => '\n' :: nlConvRe rest
  | c :: rest => c :: nlConvRe rest

/-- `convert_line_endings`: drop one trailing `\r`, then normalize. -/
def convert_line_endings (data : Line) : Line :=
  if data = [] then []
  else
    let d := if data.getLast? = some '\r' then data.dropLast else data
    nlConvRe d

/-- The observable behaviour of `patch(diff, file, filename)`:
either the early return of the unchanged base buffer (before any
temporary file is created or the `patch` subprocess spawned), or the
hand-off to the external subprocess with the converted buffers. -/
inductive PatchAction
  | unchanged (f : Line)
  | runExternal (fileConv diffConv : Line)
deriving DecidableEq, Repr

/-- `patch(diff, file, filename)` up to its external effects. -/
def patch (diff file : Line) : PatchAction :=
  if pyStrip diff = [] then .unchanged file
  else .runExternal (convert_line_endings file) (convert_line_endings diff)

/-! ### Concrete test vectors -/

/-- Original side of the spec's move-block scenario. -/
def aC1 : Lines := [chars "x=1", chars "aaaa bbbb cccc", chars "y=2"]

/-- New side of the spec's move-block scenario. -/
def bC1 : Lines := [chars "y=2", chars "aaaa bbbb cccc", chars "x=1"]

/-- Modelled from the spec: the differ (`MyersDiffer`, not part of the
sources under verification) produces, for `aC1`/`bC1`, opcodes containing
"a delete of `aaaa bbbb cccc` and an insert of same"; with `y=2` as the
common line that is a delete of lines 1-2, an equal, and an insert of the
two remaining new lines. -/
def opsC1 : List Opcode :=
  [⟨.delete, 0, 2, 0, 0⟩, ⟨.equal, 2, 3, 0, 1⟩, ⟨.insert, 3, 3, 1, 3⟩]

/-- Original side for the mismatched-pairing scenario of C3. -/
def aC3 : Lines := [chars "  AAAA", chars "  CCCC", chars "  BBBB", chars "keep"]

/-- New side for the mismatched-pairing scenario of C3. -/
def bC3 : Lines := [chars "keep", chars "AAAA", chars "BBBB", chars "CCCC"]

/-- Opcodes of a line differ for `aC3`/`bC3`: no line of `aC3` equals a
line of `bC3` except `keep` (the deleted lines carry leading blanks), so
the minimal edit script deletes the first three lines, keeps `keep`, and
inserts the three new lines. -/
def opsC3 : List Opcode :=
  [⟨.delete, 0, 3, 0, 0⟩, ⟨.equal, 3, 4, 0, 1⟩, ⟨.insert, 4, 4, 1, 4⟩]

/-! ### Predicates used by the theorems -/

/-- A replace opcode violating the equal-length assertion of
`opcodes_with_metadata`. -/
def badReplace (op : Opcode) : Prop :=
  op.tag = .replace ∧ ((op.i2 : Int) - op.i1) ≠ ((op.j2 : Int) - op.j1)

instance (op : Opcode) : Decidable (badReplace op) := by
  unfold badReplace; infer_instance

/-- The tag of the group at index `k`. -/
def tagAt (gs : List Group) (k : Nat) : Option Tag := (gs.get? k).map Group.tag

/-- The meta dict of group `k` in the mutable meta array of the move pass. -/
def metaAt (metas : List Meta) (k : Nat) : Meta := metas.getD k default

/-- The bidirectional-move invariant: every entry `o ↦ n` in a delete
group's `moved` dict has an inverse entry `n ↦ o` in some insert group's
`moved` dict. -/
def movedInv (gs : List Group) (metas : List Meta) : Prop :=
  ∀ d o n, tagAt gs d = some .delete →
    dictGet (metaAt metas d).moved o = some n →
    ∃ i, tagAt gs i = some .insert ∧ dictGet (metaAt metas i).moved n = some o

/-- Every index stored in `removes` belongs to a delete group. -/
def removesWF (gs : List Group) (rs : Removes) : Prop :=
  ∀ e ∈ rs, ∀ v ∈ e.2, tagAt gs v.2 = some .delete

/-- Every candidate range in `r_move_ranges` points at a delete group. -/
def rmrWF (gs : List Group) (rmr : RMR) : Prop :=
  ∀ e ∈ rmr, ∀ r ∈ e.2, tagAt gs r.2.2 = some .delete

/-- All keys already present in the insert group's `moved` dict are at most
`bound` (the start of the current candidate segment). -/
def keysBound (metas : List Meta) (g bound : Nat) : Prop :=
  ∀ k, dictMem (metaAt metas g).moved k = true → k ≤ bound

/-! ### Claims -/

/-- C1: for the spec's move-block scenario (`a = ["x=1", "aaaa bbbb cccc",
"y=2"]`, `b` reversed), `opcodes_with_metadata` attaches NO `moved`
entries at all, although the single moved line itself satisfies
`is_valid_move_range`: the winning candidate range is `(1, 1)` (inclusive)
but the validity test receives the slice `a[1:1]`, which is empty.  The
claimed `moved = (2 → 2)` on both sides is not produced by the code. -/
theorem C1_single_line_move_not_recorded :
    (opcodes_with_metadata aC1 bC1 opsC1).map (fun gs => gs.map (fun g => g.meta.moved))
        = .ok [[], [], []]
      ∧ is_valid_move_range [getLineD aC1 1] = true
      ∧ pySliceNat aC1 1 1 = [] :=
  ⟨rfl, rfl, rfl⟩

theorem buildGroup_error_of_bad (a b : Lines) (op : Opcode) (h : badReplace op) :
    buildGroup a b op = .error .assertReplaceLen := by
  obtain ⟨h1, h2⟩ := h
  unfold buildGroup
  rw [h1]
  simp [h2]

theorem buildGroup_ok_of_not_bad (a b : Lines) (op : Opcode) (h : ¬ badReplace op) :
    ∃ g, buildGroup a b op = .ok g := by
  unfold buildGroup
  cases htag : op.tag with
  | replace =>
    rw [if_neg (fun hc => h ⟨htag, hc⟩)]
    exact ⟨_, rfl⟩
  | equal => exact ⟨_, rfl⟩
  | delete => exact ⟨_, rfl⟩
  | insert => exact ⟨_, rfl⟩

theorem buildGroups_error_of_bad (a b : Lines) (ops : List Opcode)
    (h : ∃ op ∈ ops, badReplace op) :
    buildGroups a b ops = .error .assertReplaceLen := by
  induction ops with
  | nil => simp at h
  | cons op rest ih =>
    by_cases hop : badReplace op
    · simp only [buildGroups, buildGroup_error_of_bad a b op hop]
      rfl
    · obtain ⟨op0, hmem, hbad⟩ := h
      rcases List.mem_cons.mp hmem with heq | hmem0
      · exact absurd (heq ▸ hbad) hop
      · obtain ⟨g, hg⟩ := buildGroup_ok_of_not_bad a b op hop
        simp only [buildGroups, hg, ih ⟨op0, hmem0, hbad⟩]
        rfl

/-- C4 (counterexample): a replace opcode with one original line and two
new lines does NOT lead to a skipped pairing and normal continuation; the
`assert` aborts the whole computation. -/
theorem C4_counterexample_mismatched_replace_aborts :
    opcodes_with_metadata [chars "x"] [chars "y", chars "z"]
        [⟨.replace, 0, 1, 0, 2⟩] = .error .assertReplaceLen := rfl

/-- C4 (amended): when any replace opcode has differing side lengths,
`opcodes_with_metadata` aborts with the failed equal-length assertion
(Python raises `AssertionError`); it does not skip the pairing and
continue. -/
theorem C4_amended_mismatched_replace_is_error (a b : Lines) (ops : List Opcode)
    (h : ∃ op ∈ ops, badReplace op) :
    opcodes_with_metadata a b ops = .error .assertReplaceLen := by
  unfold opcodes_with_metadata opcodes_with_metadata_full
  rw [buildGroups_error_of_bad a b ops h]
  rfl

theorem C4_amended_witness :
    opcodes_with_metadata [chars "q"] [] [⟨.replace, 2, 3, 5, 5⟩]
      = .error .assertReplaceLen :=
  C4_amended_mismatched_replace_is_error _ _ _
    ⟨⟨.replace, 2, 3, 5, 5⟩, by decide, by decide⟩

/-- C5: `register_interesting_lines_for_filename("Rakefile")` registers no
regexes at all: the alias test uses the free builtin name `file` (always
false) and `splitext` gives `Rakefile` an empty extension, found in
neither table.  The spec-intended behaviour (alias table consulted first
for the bare filename) would register the `.rb` patterns. -/
theorem C5_rakefile_registers_nothing :
    register_interesting_lines_for_filename "Rakefile" = []
      ∧ register_interesting_lines_spec "Rakefile" = [(".rb", 0)]
      ∧ HEADER_REGEXES.lookup ".rb" = some [(".rb", 0)] :=
  ⟨rfl, rfl, rfl⟩

/-- C6 (counterexample): the byte string `0xC3 0xA9` (the UTF-8 encoding
of é) is valid UTF-8, yet `convert_to_utf8` returns the decoded `unicode`
object `u'\xe9'`, not the same bytes: the result is a different value,
and even Python's own cross-type equality rejects it. -/
theorem C6_counterexample_not_same_bytes :
    convert_to_utf8 (.bytes [195, 169]) [] (fun sb => sb) = .unicode [233]
      ∧ pyEq (.unicode [233]) (.bytes [195, 169]) = false
      ∧ (PyStr.unicode [233] ≠ PyStr.bytes [195, 169]) := by
  refine ⟨by decide, by decide, by decide⟩

theorem utf8Encode_cons (c : Nat) (u : List Nat) :
    utf8Encode (c :: u) = utf8EncodeChar c ++ utf8Encode u := by
  simp [utf8Encode]

theorem utf8DecodeOne_encode (sb : List Nat) (cp : Nat) (rest : List Nat)
    (h : utf8DecodeOne sb = some (cp, rest)) : utf8EncodeChar cp ++ rest = sb := by
  match sb with
  | [] => simp [utf8DecodeOne] at h
  | b :: r0 =>
    simp only [utf8DecodeOne] at h
    split_ifs at h with hb1 hb2 hb3 hb4 hb5
    · obtain ⟨rfl, rfl⟩ := Prod.mk.injEq .. ▸ Option.some.inj h
      simp [utf8EncodeChar, hb1]
    · match r0 with
      | [] => simp at h
      | c :: rest2 =>
        simp only [] at h
        by_cases hc : isCont c
        · rw [if_pos hc] at h
          obtain ⟨rfl, rfl⟩ := Prod.mk.injEq .. ▸ Option.some.inj h
          simp only [isCont, Bool.and_eq_true, decide_eq_true_eq] at hc
          have h1 : ¬ ((b % 32) * 64 + c % 64 < 128) := by omega
          have h2 : (b % 32) * 64 + c % 64 < 2048 := by omega
          simp only [utf8EncodeChar, if_neg h1, if_pos h2, List.cons_append,
            List.nil_append, List.cons.injEq]
          refine ⟨by omega, by omega, trivial⟩
        · rw [if_neg hc] at h
          simp at h
    · match r0 with
      | [] => simp at h
      | [c] => simp at h
      | c :: d :: rest3 =>
        simp only [] at h
        by_cases hcd : isCont c && isCont d
            && decide (2048 ≤ (b % 16) * 4096 + (c % 64) * 64 + d % 64)
        · rw [if_pos hcd] at h
          obtain ⟨rfl, rfl⟩ := Prod.mk.injEq .. ▸ Option.some.inj h
          simp only [isCont, Bool.and_eq_true, decide_eq_true_eq] at hcd
          obtain ⟨⟨hc, hd⟩, hcp⟩ := hcd
          have h1 : ¬ ((b % 16) * 4096 + (c % 64) * 64 + d % 64 < 128) := by omega
          have h2 : ¬ ((b % 16) * 4096 + (c % 64) * 64 + d % 64 < 2048) := by omega
          have h3 : (b % 16) * 4096 + (c % 64) * 64 + d % 64 < 65536 := by omega
          simp only [utf8EncodeChar, if_neg h1, if_neg h2, if_pos h3, List.cons_append,
            List.nil_append, List.cons.injEq]
          refine ⟨by omega, by omega, by omega, trivial⟩
        · rw [if_neg hcd] at h
          simp at h
    · match r0 with
      | [] => simp at h
      | [c] => simp at h
      | [c, d] => simp at h
      | c :: d :: e :: rest4 =>
        simp only [] at h
        by_cases hcde : isCont c && isCont d && isCont e
            && decide (65536 ≤ (b % 8) * 262144 + (c % 64) * 4096 + (d % 64) * 64 + e % 64)
            && decide ((b % 8) * 262144 + (c % 64) * 4096 + (d % 64) * 64 + e % 64 ≤ 1114111)
        · rw [if_pos hcde] at h
          obtain ⟨rfl, rfl⟩ := Prod.mk.injEq .. ▸ Option.some.inj h
          simp only [isCont, Bool.and_eq_true, decide_eq_true_eq] at hcde
          obtain ⟨⟨⟨⟨hc, hd⟩, he⟩, hcp1⟩, hcp2⟩ := hcde
          have h1 : ¬ ((b % 8) * 262144 + (c % 64) * 4096 + (d % 64) * 64 + e % 64 < 128) := by
            omega
          have h2 : ¬ ((b % 8) * 262144 + (c % 64) * 4096 + (d % 64) * 64 + e % 64 < 2048) := by
            omega
          have h3 : ¬ ((b % 8) * 262144 + (c % 64) * 4096 + (d % 64) * 64 + e % 64 < 65536) := by
            omega
          simp only [utf8EncodeChar, if_neg h1, if_neg h2, if_neg h3, List.cons_append,
            List.nil_append, List.cons.injEq]
          refine ⟨by omega, by omega, by omega, by omega, trivial⟩
        · rw [if_neg hcde] at h
          simp at h

theorem utf8DecodeLoop_encode :
    ∀ fuel sb u, utf8DecodeLoop fuel sb = some u → utf8Encode u = sb := by
  intro fuel
  induction fuel with
  | zero =>
    intro sb u h
    cases sb with
    | nil =>
      simp [utf8DecodeLoop] at h
      subst h
      simp [utf8Encode]
    | cons b r => simp [utf8DecodeLoop] at h
  | succ n ih =>
    intro sb u h
    cases sb with
    | nil =>
      simp [utf8DecodeLoop] at h
      subst h
      simp [utf8Encode]
    | cons b r =>
      rw [utf8DecodeLoop] at h
      cases hone : utf8DecodeOne (b :: r) with
      | none => rw [hone] at h; simp at h
      | some pr =>
        obtain ⟨cp, rest2⟩ := pr
        rw [hone] at h
        simp only [] at h
        obtain ⟨u1, hu1, rfl⟩ := Option.map_eq_some'.mp h
        rw [utf8Encode_cons, ih rest2 u1 hu1]
        exact utf8DecodeOne_encode _ _ _ hone

theorem utf8_decode_encode (sb u : List Nat) (h : utf8Decode? sb = some u) :
    utf8Encode u = sb :=
  utf8DecodeLoop_encode sb.length sb u h

/-- C6 (amended): for every byte string that decodes as valid UTF-8,
`convert_to_utf8` returns the decoded text as a `unicode` string — whose
UTF-8 re-encoding is the original bytes — rather than the byte string
itself. -/
theorem C6_amended_valid_utf8_returns_decoded (sb u : List Nat)
    (encs : List (List Nat → Option (List Nat))) (replaceDec : List Nat → List Nat)
    (h : utf8Decode? sb = some u) :
    convert_to_utf8 (.bytes sb) encs replaceDec = .unicode u ∧ utf8Encode u = sb := by
  constructor
  · simp only [convert_to_utf8]
    rw [h]
  · exact utf8_decode_encode sb u h

theorem C6_amended_witness :
    convert_to_utf8 (.bytes [195, 169]) [] (fun sb => sb) = .unicode [233]
      ∧ utf8Encode [233] = [195, 169] :=
  C6_amended_valid_utf8_returns_decoded [195, 169] [233] [] (fun sb => sb) (by decide)

/-- C7: an equal opcode is split into visible/collapsible sub-chunks iff
`numlines` exceeds `collapse_threshold = 2*context + 3` (at the threshold
a single non-collapsable chunk is emitted); whenever split, the emitted
sub-chunk ranges partition `[0, numlines)` exactly, contiguously and in
order; non-equal opcodes are never split. -/
theorem C7_collapse_rules (ctx numlines linenum i2 j2 aNum bNum : Nat) :
    (numlines ≤ 2 * ctx + 3 →
      get_chunks_ranges ctx .equal numlines linenum i2 j2 aNum bNum
        = [(0, numlines, false)])
    ∧ (numlines > 2 * ctx + 3 →
      2 ≤ (get_chunks_ranges ctx .equal numlines linenum i2 j2 aNum bNum).length
      ∧ contiguous 0 (get_chunks_ranges ctx .equal numlines linenum i2 j2 aNum bNum)
          = some numlines
      ∧ (get_chunks_ranges ctx .equal numlines linenum i2 j2 aNum bNum).any
          (fun r => r.2.2) = true)
    ∧ (∀ t, t ≠ Tag.equal →
      get_chunks_ranges ctx t numlines linenum i2 j2 aNum bNum
        = [(0, numlines, false)]) := by
  refine ⟨fun h => ?_, fun h => ?_, fun t ht => ?_⟩
  · simp only [get_chunks_ranges]
    rw [if_neg (fun hc => absurd hc.2 (by omega))]
  · simp only [get_chunks_ranges]
    rw [if_pos ⟨by trivial, h⟩]
    split_ifs with h1 h2 <;> simp [contiguous]
  · simp only [get_chunks_ranges]
    rw [if_neg (fun hc => ht hc.1)]

theorem C7_collapse_witness :
    get_chunks_ranges 3 .equal 9 5 0 0 1 1 = [(0, 9, false)]
      ∧ contiguous 0 (get_chunks_ranges 3 .equal 10 5 0 0 1 1) = some 10 :=
  ⟨(C7_collapse_rules 3 9 5 0 0 1 1).1 (by decide),
   ((C7_collapse_rules 3 10 5 0 0 1 1).2.1 (by decide)).2.1⟩

/-- C8: `get_line_changed_regions` returns `(None, None)` iff a line is
absent or the similarity ratio is below 0.6; in every other case it
returns a pair of (possibly empty) region lists. -/
theorem C8_regions_none_iff (ratio : ℚ) (ops : List Opcode)
    (oldline newline : Option Line) :
    (get_line_changed_regions ratio ops oldline newline = (none, none)
      ↔ (oldline = none ∨ newline = none ∨ ratio < (3 : ℚ) / 5))
    ∧ ((oldline ≠ none ∧ newline ≠ none ∧ ¬ ratio < (3 : ℚ) / 5) →
      ∃ xs ys, get_line_changed_regions ratio ops oldline newline
        = (some xs, some ys)) := by
  cases oldline with
  | none => simp [get_line_changed_regions]
  | some ol =>
    cases newline with
    | none => simp [get_line_changed_regions]
    | some nl =>
      by_cases hr : ratio < (3 : ℚ) / 5
      · simp [get_line_changed_regions, hr]
      · simp [get_line_changed_regions, hr]

theorem C8_witness :
    get_line_changed_regions 0 [] (some []) none = (none, none)
      ∧ ∃ xs ys, get_line_changed_regions 1 [] (some (chars "ab")) (some (chars "cd"))
          = (some xs, some ys) :=
  ⟨(C8_regions_none_iff 0 [] (some []) none).1.mpr (Or.inr (Or.inl rfl)),
   (C8_regions_none_iff 1 [] (some (chars "ab")) (some (chars "cd"))).2
     ⟨by simp, by simp, by norm_num⟩⟩

/-- C9: `cmp_file` orders by basepath ascending, then stem ascending,
then extension descending, so `.h` precedes `.c` and `.cpp` for the same
stem; the concrete files `src/a.c`, `src/a.h`, `src/b.c` sort as
`src/a.h, src/a.c, src/b.c`. -/
theorem C9_file_ordering :
    sortFiles [splitBasepath (chars "src/a.c"), splitBasepath (chars "src/a.h"),
        splitBasepath (chars "src/b.c")]
      = [splitBasepath (chars "src/a.h"), splitBasepath (chars "src/a.c"),
        splitBasepath (chars "src/b.c")]
    ∧ ∀ x y : FileRec, x.basepath = y.basepath →
        (splitext x.basename).1 = (splitext y.basename).1 →
        (splitext x.basename).2 = chars ".h" →
        ((splitext y.basename).2 = chars ".c" ∨ (splitext y.basename).2 = chars ".cpp") →
        cmp_file x y < 0 := by
  constructor
  · decide
  · intro x y h1 h2 h3 h4
    simp only [cmp_file]
    rw [if_neg (by simp [h1]), if_neg (by simp [h2])]
    rcases h4 with h4 | h4 <;> rw [h3, h4] <;> decide

theorem C9_witness :
    cmp_file (splitBasepath (chars "src/a.h")) (splitBasepath (chars "src/a.c")) < 0 :=
  C9_file_ordering.2 _ _ (by decide) (by decide) (by decide) (Or.inl (by decide))

/-- C10: a diff whose content strips to the empty string makes `patch`
return the base buffer unchanged, via the early return taken before any
temporary file is created or the external `patch` subprocess invoked. -/
theorem C10_empty_diff_returns_file (diff file : Line) (h : pyStrip diff = []) :
    patch diff file = .unchanged file := by
  simp [patch, h]

theorem C10_witness :
    patch (chars "  \n ") (chars "hello") = .unchanged (chars "hello") :=
  C10_empty_diff_returns_file _ _ (by decide)

/-! ### Move-detection invariants (C2, C3) -/

theorem exceptBind_ok {ε α β : Type} (x : α) (f : α → Except ε β) :
    (Except.ok x >>= f) = f x := rfl

theorem exceptBind_error {ε α β : Type} (e : ε) (f : α → Except ε β) :
    ((Except.error e : Except ε α) >>= f) = .error e := rfl

theorem extendFirst_length (ri rg : Nat) (l : List RRange) :
    (extendFirst ri rg l).length = l.length := by
  induction l with
  | nil => rfl
  | cons r rest ih =>
    obtain ⟨r1, r2, g0⟩ := r
    simp only [extendFirst]
    split <;> simp [ih]

theorem flattenRMR_rmrUpdate (rmr : RMR) (key : RKey) (ri rg : Nat) :
    (flattenRMR (rmrUpdate rmr key ri rg)).length = (flattenRMR rmr).length := by
  unfold flattenRMR rmrUpdate
  simp only [List.length_flatten, List.map_map]
  congr 1
  apply List.map_congr_left
  intro e he
  by_cases h : e.1 = key <;> simp [h, extendFirst_length]

theorem rmrStep_size (gs : List Group) (rmr : RMR) (e : Nat × Nat)
    (h : (flattenRMR rmr).length ≤ 1) :
    (flattenRMR (rmrStep gs rmr e)).length ≤ 1 := by
  unfold rmrStep
  by_cases hemp : rmr.isEmpty
  · simp [hemp, flattenRMR]
  · simp only [hemp, if_false, Bool.false_eq_true]
    rw [flattenRMR_rmrUpdate]
    exact h

theorem foldl_rmrStep_size (gs : List Group) (entries : List (Nat × Nat)) :
    ∀ rmr, (flattenRMR rmr).length ≤ 1 →
      (flattenRMR (entries.foldl (rmrStep gs) rmr)).length ≤ 1 := by
  induction entries with
  | nil => intro rmr h; exact h
  | cons e rest ih => intro rmr h; exact ih _ (rmrStep_size gs rmr e h)

theorem pickWinner_small (rs : List RRange) (h : rs.length ≤ 1) :
    pickWinner rs = .ok rs.head? := by
  match rs, h with
  | [], _ => rfl
  | [r], _ => rfl

theorem closeOut_ok_log (a : Lines) (g cur iStart : Nat) (rmr : RMR)
    (st st1 : MoveState) (h : closeOut a g cur iStart rmr st = .ok st1) :
    st1.log = st.log ++ [flattenRMR rmr] := by
  unfold closeOut at h
  by_cases hemp : rmr.isEmpty
  · rw [if_pos hemp] at h
    cases h
    rfl
  · rw [if_neg hemp] at h
    cases hpw : pickWinner (flattenRMR rmr) with
    | error e =>
      rw [hpw, exceptBind_error] at h
      simp at h
    | ok w =>
      rw [hpw, exceptBind_ok] at h
      match w with
      | none => cases h; rfl
      | some (r1, r2, rg) =>
        simp only [] at h
        split_ifs at h <;> (cases h; rfl)

theorem moveWalk_log (a b : Lines) (gs : List Group) (removes : Removes) (g : Nat) :
    ∀ fuel cur iStart rmr (st st1 : MoveState),
    (flattenRMR rmr).length ≤ 1 →
    (∀ rs ∈ st.log, rs.length ≤ 1) →
    moveWalk a b gs removes g fuel cur iStart rmr st = .ok st1 →
    ∀ rs ∈ st1.log, rs.length ≤ 1 := by
  intro fuel
  induction fuel with
  | zero =>
    intro cur iStart rmr st st1 hr hl h
    cases h
    exact hl
  | succ fuel ih =>
    intro cur iStart rmr st st1 hr hl h
    rw [moveWalk] at h
    cases hlk : ((b.get? cur).map pyStrip).bind (lookupRemoves removes) with
    | some entries =>
      rw [hlk] at h
      exact ih _ _ _ _ _ (foldl_rmrStep_size gs entries rmr hr) hl h
    | none =>
      rw [hlk] at h
      have h2 : (closeOut a g cur iStart rmr st >>= fun st2 =>
          moveWalk a b gs removes g fuel (cur + 1) (cur + 1) [] st2) = .ok st1 := h
      cases hco : closeOut a g cur iStart rmr st with
      | error e =>
        rw [hco, exceptBind_error] at h2
        simp at h2
      | ok st2 =>
        rw [hco, exceptBind_ok] at h2
        refine ih _ _ _ _ _ (by simp [flattenRMR]) ?_ h2
        intro rs hrs
        rw [closeOut_ok_log _ _ _ _ _ _ _ hco] at hrs
        rcases List.mem_append.mp hrs with h3 | h3
        · exact hl rs h3
        · simp only [List.mem_singleton] at h3
          subst h3
          exact hr

theorem foldlM_processInsert_log (a b : Lines) (gs : List Group) (removes : Removes) :
    ∀ (ins : List (Nat × Group)) (st stF : MoveState),
    (∀ rs ∈ st.log, rs.length ≤ 1) →
    List.foldlM (processInsert a b gs removes) st ins = .ok stF →
    ∀ rs ∈ stF.log, rs.length ≤ 1 := by
  intro ins
  induction ins with
  | nil =>
    intro st stF hl h
    rw [List.foldlM_nil] at h
    cases h
    exact hl
  | cons p rest ih =>
    intro st stF hl h
    rw [List.foldlM_cons] at h
    cases hp : processInsert a b gs removes st p with
    | error e =>
      rw [hp, exceptBind_error] at h
      simp at h
    | ok st2 =>
      rw [hp, exceptBind_ok] at h
      refine ih st2 stF ?_ h
      exact moveWalk_log a b gs removes p.1 _ _ _ _ _ _ (by simp [flattenRMR]) hl hp

theorem opcodes_full_ok (a b : Lines) (ops : List Opcode) (gs : List Group)
    (log : List (List RRange))
    (h : opcodes_with_metadata_full a b ops = .ok (gs, log)) :
    ∃ gs0 removes inserts stF,
      buildGroups a b ops = .ok gs0
      ∧ collectFrom a 0 gs0 [] [] = (removes, inserts)
      ∧ List.foldlM (processInsert a b gs0 removes) ⟨gs0.map Group.meta, []⟩ inserts
          = .ok stF
      ∧ gs = finalize gs0 stF.metas ∧ log = stF.log := by
  unfold opcodes_with_metadata_full at h
  cases hbg : buildGroups a b ops with
  | error e =>
    rw [hbg, exceptBind_error] at h
    simp at h
  | ok gs0 =>
    rw [hbg, exceptBind_ok] at h
    rcases hcol : collectFrom a 0 gs0 [] [] with ⟨removes, inserts⟩
    rw [hcol] at h
    have h2 : (List.foldlM (processInsert a b gs0 removes) ⟨gs0.map Group.meta, []⟩
        inserts >>= fun st => Except.ok (finalize gs0 st.metas, st.log))
        = .ok (gs, log) := h
    cases hfold : List.foldlM (processInsert a b gs0 removes)
        ⟨gs0.map Group.meta, []⟩ inserts with
    | error e =>
      rw [hfold, exceptBind_error] at h2
      simp at h2
    | ok stF =>
      rw [hfold, exceptBind_ok] at h2
      obtain ⟨h3, h4⟩ := Prod.mk.injEq .. ▸ Except.ok.inj h2
      exact ⟨gs0, removes, inserts, stF, rfl, hcol, hfold, h3.symm, h4.symm⟩

/-- C2: at every close-out during move detection, the candidate set in
`r_move_ranges` holds at most one range, the winner-selection loop
returns exactly that range (the longest, trivially) without error, and
two distinct tied candidates never occur — so the selection never falls
through to a shorter range. -/
theorem C2_close_out_selects_unique_longest (a b : Lines) (ops : List Opcode)
    (gs : List Group) (log : List (List RRange)) (rs : List RRange)
    (hrun : opcodes_with_metadata_full a b ops = .ok (gs, log)) (hmem : rs ∈ log) :
    rs.length ≤ 1
    ∧ pickWinner rs = .ok rs.head?
    ∧ (∀ r1 ∈ rs, ∀ r2 ∈ rs, r1 = r2)
    ∧ (∀ r ∈ rs, pickWinner rs = .ok (some r)
        ∧ ∀ r2 ∈ rs, r2.2.1 - r2.1 ≤ r.2.1 - r.1) := by
  obtain ⟨gs0, removes, inserts, stF, hbg, hcol, hfold, hgs, hlog⟩ :=
    opcodes_full_ok a b ops gs log hrun
  have hlen : rs.length ≤ 1 := by
    refine foldlM_processInsert_log a b gs0 removes inserts _ stF ?_ hfold rs ?_
    · intro rs0 h0
      simp at h0
    · rw [← hlog]
      exact hmem
  have huniq : ∀ r1 ∈ rs, ∀ r2 ∈ rs, r1 = r2 := by
    match rs, hlen with
    | [], _ => simp
    | [r], _ =>
      intro r1 h1 r2 h2
      simp only [List.mem_singleton] at h1 h2
      rw [h1, h2]
  refine ⟨hlen, pickWinner_small rs hlen, huniq, ?_⟩
  intro r hr
  constructor
  · rw [pickWinner_small rs hlen]
    match rs, hr with
    | [r0], hr =>
      simp only [List.mem_singleton] at hr
      rw [hr]
      rfl
  · intro r2 h2
    rw [huniq r2 h2 r hr]

theorem C2_witness :
    ([((0 : Nat), 1, 0)] : List RRange).length ≤ 1
      ∧ pickWinner [((0 : Nat), 1, 0)] = .ok (some ((0 : Nat), 1, 0)) := by
  have h := C2_close_out_selects_unique_longest aC3 bC3 opsC3
    [⟨.delete, 0, 3, 0, 0, ⟨false, [], [(1, 2), (2, 3)]⟩⟩,
     ⟨.equal, 3, 4, 0, 1, ⟨false, [], []⟩⟩,
     ⟨.insert, 4, 4, 1, 4, ⟨false, [], [(2, 1), (3, 2)]⟩⟩]
    [[((0 : Nat), 1, 0)]] [((0 : Nat), 1, 0)] rfl (by simp)
  refine ⟨h.1, ?_⟩
  rw [h.2.1]
  rfl

/-- C3 (counterexample): with `a = ["  AAAA", "  CCCC", "  BBBB", "keep"]`,
`b = ["keep", "AAAA", "BBBB", "CCCC"]` and the obvious diff (delete three
lines, keep `keep`, insert three lines), the insert line `BBBB` matches a
removed line but does not extend the current candidate range, yet still
advances the insert cursor; the final zip pairs delete line 2 with insert
line 3, so the delete meta holds `2 ↦ 3` while
`a[1].strip() = "CCCC" ≠ "BBBB" = b[2].strip()`. -/
theorem C3_counterexample_strip_mismatch :
    opcodes_with_metadata aC3 bC3 opsC3 = .ok
      [⟨.delete, 0, 3, 0, 0, ⟨false, [], [(1, 2), (2, 3)]⟩⟩,
       ⟨.equal, 3, 4, 0, 1, ⟨false, [], []⟩⟩,
       ⟨.insert, 4, 4, 1, 4, ⟨false, [], [(2, 1), (3, 2)]⟩⟩]
    ∧ dictGet [(1, 2), (2, 3)] 2 = some 3
    ∧ pyStrip (getLineD aC3 (2 - 1)) ≠ pyStrip (getLineD bC3 (3 - 1)) :=
  ⟨rfl, rfl, by decide⟩

/-! Dict update lemmas -/

theorem dictUpdate_cons (d : List (Nat × Nat)) (p : Nat × Nat) (ps : List (Nat × Nat)) :
    dictUpdate d (p :: ps) = dictUpdate (dictSet d p.1 p.2) ps := rfl

theorem dictGet_dictSet_self (d : List (Nat × Nat)) (k v : Nat) :
    dictGet (dictSet d k v) k = some v := by
  induction d with
  | nil => simp [dictSet, dictGet]
  | cons p rest ih =>
    obtain ⟨k1, v1⟩ := p
    simp only [dictSet]
    by_cases h : k1 = k
    · simp [dictGet, h]
    · simp [dictGet, h, ih]

theorem dictGet_dictSet_ne (d : List (Nat × Nat)) (k v k1 : Nat) (h : k1 ≠ k) :
    dictGet (dictSet d k v) k1 = dictGet d k1 := by
  induction d with
  | nil => simp [dictSet, dictGet, Ne.symm h]
  | cons p rest ih =>
    obtain ⟨k2, v2⟩ := p
    by_cases h2 : k2 = k
    · subst h2
      simp [dictSet, dictGet, Ne.symm h]
    · simp only [dictSet, if_neg h2, dictGet]
      rw [ih]

theorem dictGet_dictUpdate_not_mem (d ps : List (Nat × Nat)) (k : Nat)
    (h : k ∉ ps.map Prod.fst) :
    dictGet (dictUpdate d ps) k = dictGet d k := by
  induction ps generalizing d with
  | nil => rfl
  | cons p rest ih =>
    simp only [List.map_cons, List.mem_cons, not_or] at h
    rw [dictUpdate_cons, ih _ h.2, dictGet_dictSet_ne _ _ _ _ h.1]

theorem dictGet_dictUpdate_mem (d ps : List (Nat × Nat)) (k v : Nat)
    (hnd : (ps.map Prod.fst).Nodup) (hm : (k, v) ∈ ps) :
    dictGet (dictUpdate d ps) k = some v := by
  induction ps generalizing d with
  | nil => simp at hm
  | cons p rest ih =>
    rw [dictUpdate_cons]
    simp only [List.map_cons, List.nodup_cons] at hnd
    rcases List.mem_cons.mp hm with heq | hmem
    · rw [← heq] at hnd ⊢
      rw [dictGet_dictUpdate_not_mem _ _ _ hnd.1, dictGet_dictSet_self]
    · exact ih _ hnd.2 hmem

theorem dictGet_dictUpdate_eq_some (d ps : List (Nat × Nat)) (k v : Nat)
    (hnd : (ps.map Prod.fst).Nodup)
    (h : dictGet (dictUpdate d ps) k = some v) :
    (k, v) ∈ ps ∨ (k ∉ ps.map Prod.fst ∧ dictGet d k = some v) := by
  by_cases hk : k ∈ ps.map Prod.fst
  · left
    obtain ⟨p, hp, hfst⟩ := List.mem_map.mp hk
    have h2 := dictGet_dictUpdate_mem d ps p.1 p.2 hnd (by simpa using hp)
    rw [hfst] at h2
    rw [h2] at h
    have : v = p.2 := (Option.some.inj h).symm
    rw [this, ← hfst]
    exact hp
  · right
    exact ⟨hk, by rw [← dictGet_dictUpdate_not_mem d ps k hk]; exact h⟩

/-! Meta array lemmas -/

theorem get?_eq_some_metaAt (metas : List Meta) (k : Nat) (h : k < metas.length) :
    metas.get? k = some (metaAt metas k) := by
  unfold metaAt
  rw [List.get?_eq_getElem?, List.getElem?_eq_getElem h]
  simp [List.getD_eq_getElem?_getD, List.getElem?_eq_getElem h]

theorem updateMoved_length (metas : List Meta) (k : Nat) (ps : List (Nat × Nat)) :
    (updateMoved metas k ps).length = metas.length := by
  unfold updateMoved
  cases h : metas.get? k with
  | none => rfl
  | some m => simp

theorem metaAt_updateMoved_ne (metas : List Meta) (k : Nat) (ps : List (Nat × Nat))
    (j : Nat) (h : j ≠ k) :
    metaAt (updateMoved metas k ps) j = metaAt metas j := by
  unfold updateMoved
  cases hk : metas.get? k with
  | none => rfl
  | some m =>
    unfold metaAt
    simp only [List.getD_eq_getElem?_getD]
    rw [List.getElem?_set_ne (fun he => h he.symm)]

theorem metaAt_updateMoved_self (metas : List Meta) (k : Nat) (ps : List (Nat × Nat))
    (m : Meta) (hm : metas.get? k = some m) :
    metaAt (updateMoved metas k ps) k = { m with moved := dictUpdate m.moved ps } := by
  have hlt : k < metas.length := by
    rw [List.get?_eq_getElem?] at hm
    exact (List.getElem?_eq_some_iff.mp hm).1
  unfold updateMoved
  rw [hm]
  unfold metaAt
  simp only [List.getD_eq_getElem?_getD]
  rw [List.getElem?_set_self (by simpa using hlt)]
  rfl

/-! Tag lemmas -/

theorem tagAt_lt (gs : List Group) (k : Nat) (t : Tag) (h : tagAt gs k = some t) :
    k < gs.length := by
  unfold tagAt at h
  cases hg : gs.get? k with
  | none => rw [hg] at h; simp at h
  | some g =>
    rw [List.get?_eq_getElem?] at hg
    exact (List.getElem?_eq_some_iff.mp hg).1

theorem tagAt_ne_of_tags (gs : List Group) (j k : Nat) (t1 t2 : Tag)
    (h1 : tagAt gs j = some t1) (h2 : tagAt gs k = some t2) (ht : t1 ≠ t2) :
    j ≠ k := by
  intro he
  rw [he, h2] at h1
  exact ht (Option.some.inj h1).symm

/-! pickWinner membership -/

theorem pickWinner_error_sticky (rs : List RRange) (e : MErr) :
    rs.foldl pickWinnerStep (.error e) = .error e := by
  induction rs with
  | nil => rfl
  | cons r rest ih => exact ih

theorem pickWinner_two (r0 r1 : RRange) (rest : List RRange) :
    pickWinner (r0 :: r1 :: rest) = .error .tupleMinusInt := by
  unfold pickWinner
  simp only [List.foldl_cons]
  exact pickWinner_error_sticky rest _

theorem pickWinner_mem (rs : List RRange) (r : RRange)
    (h : pickWinner rs = .ok (some r)) : r ∈ rs := by
  match rs with
  | [] =>
    rw [show pickWinner [] = Except.ok (none : Option RRange) from rfl] at h
    simp at h
  | [r0] =>
    rw [show pickWinner [r0] = Except.ok (some r0) from rfl] at h
    have : some r0 = some r := Except.ok.inj h
    simp [← Option.some.inj this]
  | r0 :: r1 :: rest =>
    rw [pickWinner_two] at h
    simp at h

/-! Zip and range lemmas -/

theorem mem_zip_swap {α β : Type} (l1 : List α) (l2 : List β) (x : α) (y : β)
    (h : (x, y) ∈ List.zip l1 l2) : (y, x) ∈ List.zip l2 l1 := by
  rw [← List.zip_swap]
  exact List.mem_map.mpr ⟨(x, y), h, rfl⟩

theorem nodup_map_fst_zip {α β : Type} (l1 : List α) (l2 : List β) (h : l1.Nodup) :
    ((List.zip l1 l2).map Prod.fst).Nodup := by
  induction l1 generalizing l2 with
  | nil => simp
  | cons a l1 ih =>
    cases l2 with
    | nil => simp
    | cons b l2 =>
      simp only [List.nodup_cons] at h
      simp only [List.zip_cons_cons, List.map_cons, List.nodup_cons]
      refine ⟨fun hc => ?_, ih l2 h.2⟩
      obtain ⟨p, hp, hfst⟩ := List.mem_map.mp hc
      exact h.1 (hfst ▸ (List.of_mem_zip hp).1)

theorem mem_range'_bounds {m s n : Nat} (h : m ∈ List.range' s n) :
    s ≤ m ∧ m < s + n := by
  obtain ⟨i, hi, rfl⟩ := List.mem_range'.mp h
  omega

/-! Close-out preserves the bidirectional-move invariant -/

theorem closeOut_inv (a : Lines) (gs : List Group) (g cur iStart : Nat) (rmr : RMR)
    (st st1 : MoveState)
    (hlen : st.metas.length = gs.length)
    (hg : tagAt gs g = some .insert)
    (hWF : rmrWF gs rmr)
    (hQ : movedInv gs st.metas)
    (hB : keysBound st.metas g iStart)
    (hIS : iStart ≤ cur)
    (hok : closeOut a g cur iStart rmr st = .ok st1) :
    movedInv gs st1.metas ∧ keysBound st1.metas g cur
      ∧ st1.metas.length = gs.length
      ∧ ∀ j, j ≠ g → tagAt gs j = some .insert →
          metaAt st1.metas j = metaAt st.metas j := by
  unfold closeOut at hok
  by_cases hemp : rmr.isEmpty
  · rw [if_pos hemp] at hok
    cases hok
    exact ⟨hQ, fun k hk => le_trans (hB k hk) hIS, hlen, fun j _ _ => rfl⟩
  · rw [if_neg hemp] at hok
    cases hpw : pickWinner (flattenRMR rmr) with
    | error e => rw [hpw, exceptBind_error] at hok; simp at hok
    | ok w =>
      rw [hpw, exceptBind_ok] at hok
      match w, hpw with
      | none, _ =>
        cases hok
        exact ⟨hQ, fun k hk => le_trans (hB k hk) hIS, hlen, fun j _ _ => rfl⟩
      | some (r1, r2, rg), hpw =>
        have hrg : tagAt gs rg = some .delete := by
          have hmem := pickWinner_mem _ _ hpw
          obtain ⟨l, hl, hrl⟩ := List.mem_flatten.mp hmem
          obtain ⟨e, he, rfl⟩ := List.mem_map.mp hl
          exact hWF e he _ hrl
        have hrg_ne_g : rg ≠ g := tagAt_ne_of_tags gs rg g .delete .insert hrg hg
          (by intro hc; cases hc)
        simp only [] at hok
        split_ifs at hok with hvalid
        · cases hok
          -- names for the two zipped update tables
          set RL := List.range' (r1 + 1) (r2 + 1 - r1) with hRL
          set IL := List.range' (iStart + 1) (cur - iStart) with hIL
          have hndR : ((List.zip RL IL).map Prod.fst).Nodup :=
            nodup_map_fst_zip _ _ (List.nodup_range' _ _)
          have hndI : ((List.zip IL RL).map Prod.fst).Nodup :=
            nodup_map_fst_zip _ _ (List.nodup_range' _ _)
          have hrglt : rg < st.metas.length := by
            rw [hlen]; exact tagAt_lt gs rg _ hrg
          have hglt : g < st.metas.length := by
            rw [hlen]; exact tagAt_lt gs g _ hg
          have hm1len : (updateMoved st.metas rg (List.zip RL IL)).length
              = st.metas.length := updateMoved_length _ _ _
          -- the meta of g after both updates
          have hg_meta1 : metaAt (updateMoved st.metas rg (List.zip RL IL)) g
              = metaAt st.metas g :=
            metaAt_updateMoved_ne _ _ _ _ (Ne.symm hrg_ne_g)
          have hg_meta2 : metaAt (updateMoved (updateMoved st.metas rg (List.zip RL IL))
                g (List.zip IL RL)) g
              = { metaAt st.metas g with
                  moved := dictUpdate (metaAt st.metas g).moved (List.zip IL RL) } := by
            rw [metaAt_updateMoved_self _ _ _ (metaAt st.metas g)
              (by rw [get?_eq_some_metaAt _ _ (by rw [hm1len]; exact hglt), hg_meta1])]
          -- the meta of rg after both updates
          have hrg_meta : metaAt (updateMoved (updateMoved st.metas rg (List.zip RL IL))
                g (List.zip IL RL)) rg
              = { metaAt st.metas rg with
                  moved := dictUpdate (metaAt st.metas rg).moved (List.zip RL IL) } := by
            rw [metaAt_updateMoved_ne _ _ _ _ hrg_ne_g,
              metaAt_updateMoved_self _ _ _ (metaAt st.metas rg)
                (get?_eq_some_metaAt _ _ hrglt)]
          -- old witnesses survive both updates
          have hpres : ∀ i n o, tagAt gs i = some .insert →
              dictGet (metaAt st.metas i).moved n = some o →
              dictGet (metaAt (updateMoved (updateMoved st.metas rg (List.zip RL IL))
                g (List.zip IL RL)) i).moved n = some o := by
            intro i n o hi hie
            have hi_ne_rg : i ≠ rg := tagAt_ne_of_tags gs i rg .insert .delete hi hrg
              (by intro hc; cases hc)
            by_cases hig : i = g
            · subst hig
              rw [hg_meta2]
              have hnb : n ≤ iStart := hB n (by simp [dictMem, hie])
              rw [dictGet_dictUpdate_not_mem]
              · exact hie
              · intro hin2
                obtain ⟨p, hp, hpe⟩ := List.mem_map.mp hin2
                have hmem1 : p.1 ∈ IL := (List.of_mem_zip hp).1
                have hb2 := mem_range'_bounds (hIL ▸ hmem1)
                omega
            · rw [metaAt_updateMoved_ne _ _ _ _ hig,
                metaAt_updateMoved_ne _ _ _ _ hi_ne_rg]
              exact hie
          refine ⟨?_, ?_, ?_, ?_⟩
          · -- the invariant itself
            intro d o n htagd hentry
            have hd_ne_g : d ≠ g := tagAt_ne_of_tags gs d g .delete .insert htagd hg
              (by intro hc; cases hc)
            by_cases hdrg : d = rg
            · subst hdrg
              rw [hrg_meta] at hentry
              rcases dictGet_dictUpdate_eq_some _ _ _ _ hndR hentry with hin | ⟨_, hold⟩
              · exact ⟨g, hg, by
                  rw [hg_meta2]
                  exact dictGet_dictUpdate_mem _ _ _ _ hndI (mem_zip_swap _ _ _ _ hin)⟩
              · obtain ⟨i, hit, hie⟩ := hQ d o n htagd hold
                exact ⟨i, hit, hpres i n o hit hie⟩
            · rw [metaAt_updateMoved_ne _ _ _ _ hd_ne_g,
                metaAt_updateMoved_ne _ _ _ _ hdrg] at hentry
              obtain ⟨i, hit, hie⟩ := hQ d o n htagd hentry
              exact ⟨i, hit, hpres i n o hit hie⟩
          · -- keys of the insert meta stay ≤ cur
            intro k hk
            rw [hg_meta2] at hk
            simp only [dictMem] at hk
            cases hv : dictGet (dictUpdate (metaAt st.metas g).moved (List.zip IL RL)) k with
            | none => rw [hv] at hk; simp at hk
            | some v =>
              rcases dictGet_dictUpdate_eq_some _ _ _ _ hndI hv with hin | ⟨_, hold⟩
              · have hmem1 : k ∈ IL := (List.of_mem_zip hin).1
                have hb2 := mem_range'_bounds (hIL ▸ hmem1)
                omega
              · have := hB k (by simp [dictMem, hold])
                omega
          · rw [updateMoved_length, updateMoved_length]
            exact hlen
          · intro j hjg hjt
            have hj_ne_rg : j ≠ rg := tagAt_ne_of_tags gs j rg .insert .delete hjt hrg
              (by intro hc; cases hc)
            rw [metaAt_updateMoved_ne _ _ _ _ hjg,
              metaAt_updateMoved_ne _ _ _ _ hj_ne_rg]
        · cases hok
          exact ⟨hQ, fun k hk => le_trans (hB k hk) hIS, hlen, fun j _ _ => rfl⟩

/-! Well-formedness of the candidate ranges along the walk -/

theorem extendFirst_WF (ri rg : Nat) (l : List RRange) (r : RRange)
    (h : r ∈ extendFirst ri rg l) :
    r ∈ l ∨ r.2.2 = rg := by
  induction l with
  | nil => simp [extendFirst] at h
  | cons r0 rest ih =>
    obtain ⟨r1, r2, g0⟩ := r0
    simp only [extendFirst] at h
    split at h
    · rcases List.mem_cons.mp h with heq | hmem
      · right; rw [heq]
      · left; exact List.mem_cons_of_mem _ hmem
    · rcases List.mem_cons.mp h with heq | hmem
      · left; rw [heq]; exact List.mem_cons_self _ _
      · rcases ih hmem with h1 | h2
        · left; exact List.mem_cons_of_mem _ h1
        · right; exact h2

theorem rmrStep_WF (gs : List Group) (rmr : RMR) (e : Nat × Nat)
    (hWF : rmrWF gs rmr) (he : tagAt gs e.2 = some .delete) :
    rmrWF gs (rmrStep gs rmr e) := by
  unfold rmrStep
  by_cases hemp : rmr.isEmpty
  · simp only [hemp, if_true]
    intro e0 he0 r hr
    simp only [List.mem_singleton] at he0
    rw [he0] at hr
    simp only [List.mem_singleton] at hr
    rw [hr]
    exact he
  · simp only [hemp, Bool.false_eq_true, if_false]
    intro e0 he0 r hr
    unfold rmrUpdate at he0
    obtain ⟨e1, he1, rfl⟩ := List.mem_map.mp he0
    split at hr
    · rcases extendFirst_WF _ _ _ _ hr with h1 | h2
      · exact hWF e1 he1 r h1
      · rw [h2]; exact he
    · exact hWF e1 he1 r hr

theorem foldl_rmrStep_WF (gs : List Group) (entries : List (Nat × Nat)) :
    ∀ rmr, rmrWF gs rmr → (∀ v ∈ entries, tagAt gs v.2 = some .delete) →
      rmrWF gs (entries.foldl (rmrStep gs) rmr) := by
  induction entries with
  | nil => intro rmr h _; exact h
  | cons e rest ih =>
    intro rmr h hent
    exact ih _ (rmrStep_WF gs rmr e h (hent e (List.mem_cons_self _ _)))
      (fun v hv => hent v (List.mem_cons_of_mem _ hv))

theorem lookupRemoves_mem (rs : Removes) (key : Line) (vs : List (Nat × Nat))
    (h : lookupRemoves rs key = some vs) :
    ∃ e ∈ rs, e.2 = vs := by
  induction rs with
  | nil => simp [lookupRemoves] at h
  | cons e rest ih =>
    obtain ⟨k, vs0⟩ := e
    simp only [lookupRemoves] at h
    split at h
    · exact ⟨(k, vs0), List.mem_cons_self _ _, Option.some.inj h⟩
    · obtain ⟨e0, he0, hee⟩ := ih h
      exact ⟨e0, List.mem_cons_of_mem _ he0, hee⟩

/-! The walk preserves the invariant -/

theorem moveWalk_moved (a b : Lines) (gs : List Group) (removes : Removes) (g : Nat)
    (hrem : removesWF gs removes) (hg : tagAt gs g = some .insert) :
    ∀ fuel cur iStart rmr (st st1 : MoveState),
    rmrWF gs rmr →
    movedInv gs st.metas →
    keysBound st.metas g iStart →
    st.metas.length = gs.length →
    iStart ≤ cur →
    moveWalk a b gs removes g fuel cur iStart rmr st = .ok st1 →
    movedInv gs st1.metas ∧ st1.metas.length = gs.length
      ∧ ∀ j, j ≠ g → tagAt gs j = some .insert →
          metaAt st1.metas j = metaAt st.metas j := by
  intro fuel
  induction fuel with
  | zero =>
    intro cur iStart rmr st st1 hWF hQ hB hlen hIS h
    cases h
    exact ⟨hQ, hlen, fun _ _ _ => rfl⟩
  | succ fuel ih =>
    intro cur iStart rmr st st1 hWF hQ hB hlen hIS h
    rw [moveWalk] at h
    cases hlk : ((b.get? cur).map pyStrip).bind (lookupRemoves removes) with
    | some entries =>
      rw [hlk] at h
      have hent : ∀ v ∈ entries, tagAt gs v.2 = some .delete := by
        obtain ⟨line, _, hlook⟩ := Option.bind_eq_some.mp hlk
        obtain ⟨e, he, hee⟩ := lookupRemoves_mem removes line entries hlook
        intro v hv
        exact hrem e he v (hee ▸ hv)
      exact ih (cur + 1) iStart _ st st1 (foldl_rmrStep_WF gs entries rmr hWF hent)
        hQ hB hlen (by omega) h
    | none =>
      rw [hlk] at h
      have h2 : (closeOut a g cur iStart rmr st >>= fun st2 =>
          moveWalk a b gs removes g fuel (cur + 1) (cur + 1) [] st2) = .ok st1 := h
      cases hco : closeOut a g cur iStart rmr st with
      | error e => rw [hco, exceptBind_error] at h2; simp at h2
      | ok st2 =>
        rw [hco, exceptBind_ok] at h2
        obtain ⟨hQ2, hB2, hlen2, hpres2⟩ :=
          closeOut_inv a gs g cur iStart rmr st st2 hlen hg hWF hQ hB hIS hco
        obtain ⟨hQ3, hlen3, hpres3⟩ := ih (cur + 1) (cur + 1) [] st2 st1
          (by intro e he; simp at he) hQ2
          (fun k hk => by have := hB2 k hk; omega) hlen2 (le_refl _) h2
        exact ⟨hQ3, hlen3, fun j hj ht => by rw [hpres3 j hj ht, hpres2 j hj ht]⟩

theorem foldlM_processInsert_moved (a b : Lines) (gs : List Group) (removes : Removes)
    (hrem : removesWF gs removes) :
    ∀ (ins : List (Nat × Group)) (st stF : MoveState),
    (∀ p ∈ ins, tagAt gs p.1 = some .insert) →
    List.Pairwise (fun p q : Nat × Group => p.1 < q.1) ins →
    movedInv gs st.metas →
    (∀ p ∈ ins, (metaAt st.metas p.1).moved = []) →
    st.metas.length = gs.length →
    List.foldlM (processInsert a b gs removes) st ins = .ok stF →
    movedInv gs stF.metas ∧ stF.metas.length = gs.length := by
  intro ins
  induction ins with
  | nil =>
    intro st stF _ _ hQ _ hlen h
    rw [List.foldlM_nil] at h
    cases h
    exact ⟨hQ, hlen⟩
  | cons p rest ih =>
    intro st stF htags hpair hQ hclean hlen h
    rw [List.foldlM_cons] at h
    cases hp : processInsert a b gs removes st p with
    | error e => rw [hp, exceptBind_error] at h; simp at h
    | ok st2 =>
      rw [hp, exceptBind_ok] at h
      have hgp : tagAt gs p.1 = some .insert := htags p (List.mem_cons_self _ _)
      obtain ⟨hQ2, hlen2, hpres⟩ := moveWalk_moved a b gs removes p.1 hrem hgp
        _ _ _ _ st st2
        (by intro e he; simp at he)
        hQ
        (by
          intro k hk
          rw [hclean p (List.mem_cons_self _ _)] at hk
          simp [dictMem, dictGet] at hk)
        hlen (le_refl _) hp
      refine ih st2 stF (fun q hq => htags q (List.mem_cons_of_mem _ hq))
        hpair.of_cons hQ2 ?_ hlen2 h
      intro q hq
      have hqg : q.1 ≠ p.1 := by
        have := (List.pairwise_cons.mp hpair).1 q hq
        omega
      rw [hpres q.1 hqg (htags q (List.mem_cons_of_mem _ hq))]
      exact hclean q (List.mem_cons_of_mem _ hq)

/-! Facts about the removes/inserts index built by the first pass -/

theorem removesAdd_values (rs : Removes) (key : Line) (v : Nat × Nat) :
    ∀ e ∈ removesAdd rs key v, ∀ w ∈ e.2, (∃ e0 ∈ rs, w ∈ e0.2) ∨ w = v := by
  induction rs with
  | nil =>
    intro e he w hw
    simp only [removesAdd, List.mem_singleton] at he
    rw [he] at hw
    simp only [List.mem_singleton] at hw
    right; exact hw
  | cons e0 rest ih =>
    intro e he w hw
    obtain ⟨k0, vs0⟩ := e0
    simp only [removesAdd] at he
    split at he
    · rcases List.mem_cons.mp he with heq | hmem
      · rw [heq] at hw
        rcases List.mem_append.mp hw with h1 | h2
        · left; exact ⟨(k0, vs0), List.mem_cons_self _ _, h1⟩
        · right; simpa using h2
      · left
        exact ⟨e, List.mem_cons_of_mem _ hmem, hw⟩
    · rcases List.mem_cons.mp he with heq | hmem
      · left
        exact ⟨(k0, vs0), List.mem_cons_self _ _, heq ▸ hw⟩
      · rcases ih e hmem w hw with ⟨e1, he1, hw1⟩ | h2
        · left; exact ⟨e1, List.mem_cons_of_mem _ he1, hw1⟩
        · right; exact h2

theorem foldl_removesAdd_WF (a : Lines) (gsFull : List Group) (idx : Nat)
    (htag : tagAt gsFull idx = some .delete) (l : List Nat) :
    ∀ rs, removesWF gsFull rs →
    removesWF gsFull (l.foldl (fun racc i =>
      let line := pyStrip (getLineD a i)
      if line = [] then racc else removesAdd racc line (i, idx)) rs) := by
  induction l with
  | nil => intro rs h; exact h
  | cons i rest ih =>
    intro rs h
    refine ih _ ?_
    by_cases hline : pyStrip (getLineD a i) = []
    · simpa [hline] using h
    · simp only [hline, if_false]
      intro e he w hw
      rcases removesAdd_values rs _ _ e he w hw with ⟨e0, he0, hw0⟩ | heq
      · exact h e0 he0 w hw0
      · rw [heq]
        exact htag

theorem collectFrom_facts (a : Lines) (gsFull : List Group) :
    ∀ (rest : List Group) (idx : Nat) (rs : Removes) (ins : List (Nat × Group))
      (removes : Removes) (inserts : List (Nat × Group)),
    (∀ k, gsFull.get? (idx + k) = rest.get? k) →
    removesWF gsFull rs →
    (∀ p ∈ ins, tagAt gsFull p.1 = some .insert) →
    (∀ p ∈ ins, p.1 < idx) →
    List.Pairwise (fun p q : Nat × Group => p.1 < q.1) ins →
    collectFrom a idx rest rs ins = (removes, inserts) →
    removesWF gsFull removes
      ∧ (∀ p ∈ inserts, tagAt gsFull p.1 = some .insert)
      ∧ List.Pairwise (fun p q : Nat × Group => p.1 < q.1) inserts := by
  intro rest
  induction rest with
  | nil =>
    intro idx rs ins removes inserts _ hWF htags _ hpair hcol
    simp only [collectFrom] at hcol
    obtain ⟨h1, h2⟩ := Prod.mk.injEq .. ▸ hcol
    rw [← h1, ← h2]
    exact ⟨hWF, htags, hpair⟩
  | cons g rest ih =>
    intro idx rs ins removes inserts hsuf hWF htags hbound hpair hcol
    have hidx : gsFull.get? idx = some g := by
      have := hsuf 0
      simpa using this
    have hsuf2 : ∀ k, gsFull.get? (idx + 1 + k) = rest.get? k := by
      intro k
      have := hsuf (k + 1)
      rw [show idx + (k + 1) = idx + 1 + k by omega] at this
      simpa using this
    simp only [collectFrom] at hcol
    cases hgt : g.tag with
    | delete =>
      rw [hgt] at hcol
      refine ih (idx + 1) _ ins removes inserts hsuf2 ?_ htags
        (fun p hp => by have := hbound p hp; omega) hpair hcol
      exact foldl_removesAdd_WF a gsFull idx
        (by unfold tagAt; rw [hidx]; simp [hgt]) _ rs hWF
    | insert =>
      rw [hgt] at hcol
      refine ih (idx + 1) rs _ removes inserts hsuf2 hWF ?_ ?_ ?_ hcol
      · intro p hp
        rcases List.mem_append.mp hp with h1 | h2
        · exact htags p h1
        · simp only [List.mem_singleton] at h2
          rw [h2]
          unfold tagAt
          rw [hidx]
          simp [hgt]
      · intro p hp
        rcases List.mem_append.mp hp with h1 | h2
        · have := hbound p h1; omega
        · simp only [List.mem_singleton] at h2
          rw [h2]; omega
      · rw [List.pairwise_append]
        refine ⟨hpair, List.pairwise_singleton _ _, ?_⟩
        intro p hp q hq
        simp only [List.mem_singleton] at hq
        rw [hq]
        exact hbound p hp
    | equal =>
      rw [hgt] at hcol
      exact ih (idx + 1) rs ins removes inserts hsuf2 hWF htags
        (fun p hp => by have := hbound p hp; omega) hpair hcol
    | replace =>
      rw [hgt] at hcol
      exact ih (idx + 1) rs ins removes inserts hsuf2 hWF htags
        (fun p hp => by have := hbound p hp; omega) hpair hcol

/-! Initial state of the move pass -/

theorem buildGroup_moved (a b : Lines) (op : Opcode) (g : Group)
    (h : buildGroup a b op = .ok g) : g.meta.moved = [] := by
  unfold buildGroup at h
  cases htag : op.tag with
  | replace =>
    rw [htag] at h
    split_ifs at h with h1
    cases h
    rfl
  | equal => rw [htag] at h; cases h; rfl
  | delete => rw [htag] at h; cases h; rfl
  | insert => rw [htag] at h; cases h; rfl

theorem buildGroups_moved (a b : Lines) (ops : List Opcode) (gs0 : List Group)
    (h : buildGroups a b ops = .ok gs0) :
    ∀ g ∈ gs0, g.meta.moved = [] := by
  induction ops generalizing gs0 with
  | nil =>
    rw [show buildGroups a b [] = .ok [] from rfl] at h
    cases h
    simp
  | cons op rest ih =>
    rw [show buildGroups a b (op :: rest) = (buildGroup a b op >>= fun g =>
      buildGroups a b rest >>= fun gs => .ok (g :: gs)) from rfl] at h
    cases hbg : buildGroup a b op with
    | error e => rw [hbg, exceptBind_error] at h; simp at h
    | ok g0 =>
      rw [hbg, exceptBind_ok] at h
      cases hrest : buildGroups a b rest with
      | error e => rw [hrest, exceptBind_error] at h; simp at h
      | ok gs1 =>
        rw [hrest, exceptBind_ok] at h
        cases h
        intro g hg
        rcases List.mem_cons.mp hg with heq | hmem
        · rw [heq]; exact buildGroup_moved a b op g0 hbg
        · exact ih gs1 hrest g hmem

theorem metaAt_map_moved (gs0 : List Group) (hmv : ∀ g ∈ gs0, g.meta.moved = [])
    (k : Nat) :
    (metaAt (gs0.map Group.meta) k).moved = [] := by
  unfold metaAt
  rw [List.getD_eq_getElem?_getD]
  cases hk : (gs0.map Group.meta)[k]? with
  | none => rfl
  | some m =>
    simp only [Option.getD_some]
    obtain ⟨g, hg, rfl⟩ := List.mem_map.mp (List.getElem?_mem hk)
    exact hmv g hg

theorem movedInv_init (gs0 : List Group) (hmv : ∀ g ∈ gs0, g.meta.moved = []) :
    movedInv gs0 (gs0.map Group.meta) := by
  intro d o n _ hentry
  rw [metaAt_map_moved gs0 hmv d] at hentry
  simp [dictGet] at hentry

theorem finalize_getElem? (gs0 : List Group) (metas : List Meta) (k : Nat) :
    (finalize gs0 metas)[k]? = match gs0[k]?, metas[k]? with
      | some g, some m => some { g with meta := m }
      | _, _ => none := by
  unfold finalize
  rw [List.getElem?_zipWith]
  cases gs0[k]? <;> cases metas[k]? <;> rfl

/-- C3 (amended): for every pair of input line sequences and every entry
`old ↦ new` recorded in the `moved` meta of a delete opcode by
`opcodes_with_metadata`, some insert opcode's `moved` meta contains the
inverse entry `new ↦ old`.  (The stripped-line equality
`a[old-1].strip() == b[new-1].strip()` claimed alongside it does NOT hold
in general; see the counterexample.) -/
theorem C3_amended_moved_inverse (a b : Lines) (ops : List Opcode) (gs : List Group)
    (hrun : opcodes_with_metadata a b ops = .ok gs)
    (gd : Group) (hgd : gd ∈ gs) (htag : gd.tag = .delete)
    (o n : Nat) (hentry : dictGet gd.meta.moved o = some n) :
    ∃ gi ∈ gs, gi.tag = .insert ∧ dictGet gi.meta.moved n = some o := by
  obtain ⟨log, hfull⟩ : ∃ log, opcodes_with_metadata_full a b ops = .ok (gs, log) := by
    unfold opcodes_with_metadata at hrun
    cases hf : opcodes_with_metadata_full a b ops with
    | error e => rw [hf] at hrun; simp [Except.map] at hrun
    | ok pr =>
      obtain ⟨gs1, log⟩ := pr
      rw [hf] at hrun
      simp only [Except.map] at hrun
      have heq : gs1 = gs := Except.ok.inj hrun
      subst heq
      exact ⟨log, rfl⟩
  obtain ⟨gs0, removes, inserts, stF, hbg, hcol, hfold, hgs, hlog⟩ :=
    opcodes_full_ok a b ops gs log hfull
  have hmoved0 := buildGroups_moved a b ops gs0 hbg
  obtain ⟨hremWF, hinsTags, hinsPair⟩ := collectFrom_facts a gs0 gs0 0 [] []
    removes inserts (fun k => by simp)
    (by intro e he; simp at he)
    (by intro p hp; simp at hp)
    (by intro p hp; simp at hp)
    List.Pairwise.nil hcol
  obtain ⟨hQ, hmlen⟩ := foldlM_processInsert_moved a b gs0 removes hremWF inserts
    ⟨gs0.map Group.meta, []⟩ stF hinsTags hinsPair
    (movedInv_init gs0 hmoved0)
    (fun p _ => metaAt_map_moved gs0 hmoved0 p.1)
    (by simp) hfold
  subst hgs
  obtain ⟨d, hd⟩ := List.mem_iff_getElem?.mp hgd
  rw [finalize_getElem?] at hd
  cases hg0 : gs0[d]? with
  | none => rw [hg0] at hd; simp at hd
  | some g0 =>
    cases hm0 : stF.metas[d]? with
    | none => rw [hg0, hm0] at hd; simp at hd
    | some m0 =>
      rw [hg0, hm0] at hd
      have hgd_eq : gd = { g0 with meta := m0 } := (Option.some.inj hd).symm
      have htagd : tagAt gs0 d = some .delete := by
        unfold tagAt
        rw [List.get?_eq_getElem?, hg0]
        rw [hgd_eq] at htag
        exact congrArg some htag
      have hmd : metaAt stF.metas d = m0 := by
        unfold metaAt
        rw [List.getD_eq_getElem?_getD, hm0]
        rfl
      have hentry2 : dictGet (metaAt stF.metas d).moved o = some n := by
        rw [hmd]
        rw [hgd_eq] at hentry
        exact hentry
      obtain ⟨i, hit, hie⟩ := hQ d o n htagd hentry2
      have hilt : i < gs0.length := tagAt_lt gs0 i _ hit
      have himlt : i < stF.metas.length := by omega
      obtain ⟨g0i, hg0i⟩ : ∃ g0i, gs0[i]? = some g0i := by
        rw [List.getElem?_eq_getElem hilt]
        exact ⟨_, rfl⟩
      have hmi : stF.metas[i]? = some (metaAt stF.metas i) := by
        have h2 := get?_eq_some_metaAt stF.metas i himlt
        rw [List.get?_eq_getElem?] at h2
        exact h2
      refine ⟨{ g0i with meta := metaAt stF.metas i }, ?_, ?_, ?_⟩
      · exact List.getElem?_mem (by rw [finalize_getElem?, hg0i, hmi])
      · show g0i.tag = .insert
        unfold tagAt at hit
        rw [List.get?_eq_getElem?, hg0i] at hit
        exact Option.some.inj hit
      · exact hie

theorem C3_amended_witness :
    ∃ gi ∈ [(⟨Tag.delete, 0, 3, 0, 0, ⟨false, [], [(1, 2), (2, 3)]⟩⟩ : Group),
            ⟨Tag.equal, 3, 4, 0, 1, ⟨false, [], []⟩⟩,
            ⟨Tag.insert, 4, 4, 1, 4, ⟨false, [], [(2, 1), (3, 2)]⟩⟩],
      gi.tag = Tag.insert ∧ dictGet gi.meta.moved 2 = some 1 :=
  C3_amended_moved_inverse aC3 bC3 opsC3 _ rfl
    ⟨Tag.delete, 0, 3, 0, 0, ⟨false, [], [(1, 2), (2, 3)]⟩⟩ (by decide) rfl 1 2 rfl

end Diffutils
